import Mathlib

/-!
Shallow embedding of the mcp-file-search-server core
(`utils.py`, `search_functions.py`, `fastmcp_file_search.py`, `models.py`)
and proofs about the claims of its specification.

Strings are modelled as lists of characters; the filesystem as an explicit
model of the `os.walk` output (a list of directories, each with the base
names of the files it holds); optional third-party document libraries and
raw file reads as an explicit environment record.
-/

namespace FileSearch

/-- Strings are modelled as lists of characters. -/
abbrev Str := List Char

/-- Python `str.lower` (ASCII range, which covers all data in this development). -/
def lowerStr (s : Str) : Str := s.map Char.toLower

/-- Boolean test that the first list is a prefix of the second. -/
def isPreB : Str → Str → Bool
  | [], _ => true
  | _ :: _, [] => false
  | a :: as, b :: bs => a == b && isPreB as bs

/-- Python substring containment (the `in` operator on strings); an empty
needle is contained in every string. -/
def hasSub (needle : Str) : Str → Bool
  | [] => needle.isEmpty
  | c :: s => isPreB needle (c :: s) || hasSub needle s

/-- Python `str.startswith` for a single character. -/
def startsW (c : Char) : Str → Bool
  | [] => false
  | a :: _ => a == c

/-- Python `str.endswith`. -/
def endsW (suf s : Str) : Bool := isPreB suf.reverse s.reverse

/-- Number of non-overlapping occurrences of a non-empty needle, scanning
left to right (the behaviour of Python `str.count` on non-empty needles).
The fuel argument only makes the recursion structural; every recursive call
shortens the scanned list, so fuel `s.length` (as supplied by `countNE`)
never runs out. -/
def countNEFuel (sub : Str) : Nat → Str → Nat
  | _, [] => 0
  | 0, _ :: _ => 0
  | fuel + 1, c :: s =>
    if isPreB sub (c :: s) then 1 + countNEFuel sub fuel (s.drop (sub.length - 1))
    else countNEFuel sub fuel s

/-- Python `str.count` on a non-empty needle. -/
def countNE (sub s : Str) : Nat := countNEFuel sub s.length s

/-- Python `str.count`, including the convention that an empty needle occurs
`len(s) + 1` times. -/
def pyCount (s sub : Str) : Nat := if sub.isEmpty then s.length + 1 else countNE sub s

/-- Python `str.replace` for a non-empty pattern: replace non-overlapping
occurrences left to right.  Fuel as in `countNEFuel`. -/
def replaceNEFuel (old new : Str) : Nat → Str → Str
  | _, [] => []
  | 0, s => s
  | fuel + 1, c :: s =>
    if isPreB old (c :: s) then new ++ replaceNEFuel old new fuel (s.drop (old.length - 1))
    else c :: replaceNEFuel old new fuel s

/-- Python `str.replace` on a non-empty pattern. -/
def replaceNE (old new s : Str) : Str := replaceNEFuel old new s.length s

/-- Python `str.replace`, including the empty-pattern convention that inserts
the replacement at every position. -/
def pyReplace (s old new : Str) : Str :=
  if old.isEmpty then new ++ s.foldr (fun c acc => c :: (new ++ acc)) []
  else replaceNE old new s

/-- Python `str.lstrip('/')`. -/
def lstripSlash (s : Str) : Str := s.dropWhile (fun c => c == '/')

/-- Python `str.strip()` (whitespace at both ends). -/
def pyStrip (s : Str) : Str :=
  ((s.dropWhile Char.isWhitespace).reverse.dropWhile Char.isWhitespace).reverse

/-- Python `str.split()` with no argument: split on whitespace runs,
producing no empty tokens.  Fuel as in `countNEFuel`. -/
def splitWsFuel : Nat → Str → List Str
  | _, [] => []
  | 0, _ :: _ => []
  | fuel + 1, c :: s =>
    if c.isWhitespace then splitWsFuel fuel s
    else (c :: s.takeWhile (fun ch => !ch.isWhitespace)) ::
      splitWsFuel fuel (s.dropWhile (fun ch => !ch.isWhitespace))

/-- Python `str.split()` with no argument. -/
def splitWs (s : Str) : List Str := splitWsFuel s.length s

/-- Python `', '.join`. -/
def joinComma (xs : List Str) : Str := List.intercalate (", ".data) xs

/-- The extension component of `os.path.splitext` applied to a base name:
a maximal run of leading dots never begins an extension; otherwise the
extension starts at the last dot. -/
def splitextExt (name : Str) : Str :=
  let lead := name.takeWhile (fun c => c == '.')
  let rest := name.drop lead.length
  if rest.contains '.' then '.' :: (rest.reverse.takeWhile (fun c => c != '.')).reverse
  else []

/-! String constants of the source. -/

/-- Criterion tag `"file_type"`. -/
def sFileType : Str := "file_type".data

/-- Criterion tag `"filename"`. -/
def sFilename : Str := "filename".data

/-- Criterion tag `"content"`. -/
def sContent : Str := "content".data

/-- Combination-policy value `"AND"`. -/
def sAND : Str := "AND".data

/-- Combination-policy value `"OR"`. -/
def sOR : Str := "OR".data

/-- The directory denylist of `get_valid_files` (utils.py lines 27-30). -/
def denyPatterns : List Str :=
  [ ".cache".data, ".local".data, ".vscode".data, ".ds_store".data, ".venv".data,
    ".git".data, "venv".data, "__pycache__".data, "site-packages".data,
    "cloudstorage".data, "clouddocs".data ]

/-! Directory walker (utils.py, `get_valid_files`). -/

/-- A model of the `os.walk` output: each entry is a directory path together
with the base names of the files it holds, in traversal order. -/
abbrev Walk := List (Str × List Str)

/-- `os.path.join` for one component. -/
def joinPath (root name : Str) : Str :=
  match root.getLast? with
  | some '/' => root ++ name
  | _ => root ++ '/' :: name

/-- The directory exclusion test of `get_valid_files`: some denylist pattern
is a substring of the lower-cased directory path. -/
def denyDir (root : Str) : Bool := denyPatterns.any (fun p => hasSub p (lowerStr root))

/-- The per-file rule of `get_valid_files`: base names starting with `.`
or `~`, or ending with `.h`, are skipped. -/
def okName (f : Str) : Bool := !startsW '.' f && !startsW '~' f && !endsW (".h".data) f

/-- `get_valid_files` from utils.py: yields `(filepath, filename)` for files
surviving the directory and name rules.  The relative-path component the
source also yields is recomputed downstream by `search_files` and never
consumed, so it is not modelled. -/
def get_valid_files (walk : Walk) : List (Str × Str) :=
  walk.foldr
    (fun e acc =>
      if denyDir e.1 then acc
      else (e.2.filter okName).map (fun f => (joinPath e.1 f, f)) ++ acc)
    []

/-! Matcher result records (the dictionaries built by search_functions.py). -/

/-- One matcher result dictionary.  Every matcher fills every key, so the
`dict.get` defaults of the aggregator never fire and the keys are modelled
as always-present fields. -/
structure MatchRecord where
  file_path : Str
  file_name : Str
  relevance_score : Nat
  match_details : Str
  search_type : Str
deriving DecidableEq

/-- The per-file test and record of `search_by_file_type`
(search_functions.py lines 14-23). -/
def fileTypeRecord (file_types : List Str) (pr : Str × Str) : Option MatchRecord :=
  let ext := lowerStr (splitextExt pr.2)
  if (file_types.map lowerStr).contains ext then
    some { file_path := pr.1, file_name := pr.2, relevance_score := 15,
           match_details := "file type: ".data ++ ext, search_type := sFileType }
  else none

/-- The per-file test and record of `search_by_filename`
(search_functions.py lines 43-60): case-insensitive substring search of each
keyword against the base name, 10 points per matching keyword. -/
def filenameRecord (keywords : List Str) (pr : Str × Str) : Option MatchRecord :=
  let matched := keywords.filter (fun k => hasSub (lowerStr k) (lowerStr pr.2))
  if matched.isEmpty then none
  else
    some { file_path := pr.1, file_name := pr.2, relevance_score := 10 * matched.length,
           match_details := "filename: ".data ++ joinComma matched, search_type := sFilename }

/-- The scan loop shared by `search_by_file_type` and `search_by_filename`:
skipped candidates and non-matching candidates are passed over, and the
result-cap test runs only after a record is appended, exactly as in the
source (`if len(results) >= max_results: break` inside the match branch). -/
def capGo (record : Str × Str → Option MatchRecord) (maxr : Nat) :
    List (Str × Str) → List MatchRecord → List MatchRecord
  | [], acc => acc
  | f :: fs, acc =>
    match record f with
    | some r => if maxr ≤ (acc ++ [r]).length then acc ++ [r] else capGo record maxr fs (acc ++ [r])
    | none => capGo record maxr fs acc

/-- The scan loop of `search_by_content`: the `existing_files` skip jumps to
the next candidate, while the result-cap test runs after every candidate
that was not skipped (search_functions.py lines 75-200). -/
def capGoEach (record : Str × Str → Option MatchRecord) (skip : Str × Str → Bool) (maxr : Nat) :
    List (Str × Str) → List MatchRecord → List MatchRecord
  | [], acc => acc
  | f :: fs, acc =>
    if skip f then capGoEach record skip maxr fs acc
    else
      let acc2 := acc ++ (match record f with | some r => [r] | none => [])
      if maxr ≤ acc2.length then acc2 else capGoEach record skip maxr fs acc2

/-- `search_by_file_type` from search_functions.py, driven by the modelled
walker output. -/
def search_by_file_type (walk : Walk) (file_types : List Str) (max_results : Nat) :
    List MatchRecord :=
  if file_types.isEmpty then []
  else capGo (fileTypeRecord file_types) max_results (get_valid_files walk) []

/-- `search_by_filename` from search_functions.py.  The `existing_files` skip
sits inside the candidate test, so it is folded into the record function. -/
def search_by_filename (walk : Walk) (keywords : List Str) (existing_files : List Str)
    (max_results : Nat) : List MatchRecord :=
  if keywords.isEmpty then []
  else
    capGo (fun pr => if existing_files.contains pr.1 then none else filenameRecord keywords pr)
      max_results (get_valid_files walk) []

/-! Content extraction (search_functions.py lines 80-173). -/

/-- Outcome of a third-party library call: extracted text, or an internal
exception caught by the local handler. -/
inductive LibResult where
  | ok (text : Str)
  | exn
deriving DecidableEq

/-- Environment for content extraction: availability and behaviour of the
optional libraries, the `mimetypes.guess_type` result, and raw text reads
(`open(..., errors='ignore').read`); `none` from `fileRaw` models an OS-level
read error (`PermissionError`/`OSError`). -/
structure ExtractEnv where
  hasPyPDF2 : Bool
  hasDocx : Bool
  hasOpenpyxl : Bool
  guessMime : Str → Option Str
  pdfText : Str → LibResult
  docxText : Str → LibResult
  jsonText : Str → LibResult
  xlsxText : Str → LibResult
  csvText : Str → LibResult
  fileRaw : Str → Option Str

/-- Media type `application/pdf`. -/
def mPdf : Str := "application/pdf".data

/-- Media type of `.docx` documents. -/
def mDocx : Str := "application/vnd.openxmlformats-officedocument.wordprocessingml.document".data

/-- Media type `application/msword`. -/
def mMsword : Str := "application/msword".data

/-- Media type `application/json`. -/
def mJson : Str := "application/json".data

/-- Media type of `.xlsx` spreadsheets. -/
def mXlsx : Str := "application/vnd.openxmlformats-officedocument.spreadsheetml.sheet".data

/-- Media type `application/vnd.ms-excel`. -/
def mXls : Str := "application/vnd.ms-excel".data

/-- Media type `text/csv`. -/
def mCsv : Str := "text/csv".data

/-- The extensions handled by the raw-text branch. -/
def textExts : List Str :=
  [ ".py".data, ".js".data, ".html".data, ".css".data, ".xml".data, ".yaml".data,
    ".yml".data, ".md".data, ".rst".data, ".txt".data, ".log".data ]

/-- The substrings that mark a media type as readable in the last-resort branch. -/
def readableHints : List Str :=
  [ "text".data, "xml".data, "json".data, "javascript".data, "css".data ]

/-- True when the guessed media type exists and satisfies the test (Python
truthiness of `mime_type and p(mime_type)`). -/
def mimeIs (m : Option Str) (p : Str → Bool) : Bool :=
  match m with
  | some s => p s
  | none => false

/-- The content-extraction dispatch of `search_by_content` (lines 80-173):
`none` models the file being skipped by the outer
`except (PermissionError, UnicodeDecodeError, OSError)` handler, otherwise
the extracted text is returned (possibly empty). -/
def extractContent (env : ExtractEnv) (filepath fname : Str) : Option Str :=
  let mime := env.guessMime filepath
  let ext := lowerStr (splitextExt fname)
  if mime == some mPdf || ext == ".pdf".data then
    if env.hasPyPDF2 then
      match env.pdfText filepath with
      | .ok t => some t
      | .exn => some []
    else
      match env.fileRaw filepath with
      | some t => some (t.take 50000)
      | none => none
  else if mime == some mDocx || mime == some mMsword
      || ext == ".docx".data || ext == ".doc".data then
    if env.hasDocx then
      match env.docxText filepath with
      | .ok t => some t
      | .exn => some []
    else some []
  else if mime == some mJson || ext == ".json".data then
    match env.jsonText filepath with
    | .ok t => some t
    | .exn =>
      match env.fileRaw filepath with
      | some t => some (t.take 50000)
      | none => none
  else if mime == some mXlsx || mime == some mXls
      || ext == ".xlsx".data || ext == ".xls".data then
    if env.hasOpenpyxl then
      match env.xlsxText filepath with
      | .ok t => some t
      | .exn => some []
    else some []
  else if mime == some mCsv || ext == ".csv".data then
    match env.csvText filepath with
    | .ok t => some t
    | .exn => some []
  else if mimeIs mime (fun m => isPreB ("text/".data) m) || textExts.contains ext then
    some (((env.fileRaw filepath).map (fun t => t.take 50000)).getD [])
  else if mimeIs mime (fun m => readableHints.any (fun h => hasSub h m)) then
    some (((env.fileRaw filepath).map (fun t => t.take 50000)).getD [])
  else some []

/-- The matching block of `search_by_content` (lines 175-194): lower-case the
text, count each keyword, keep keywords with a positive count, score two
points per occurrence. -/
def contentMatchRecord (env : ExtractEnv) (keywords : List Str) (pr : Str × Str) :
    Option MatchRecord :=
  match extractContent env pr.1 pr.2 with
  | none => none
  | some t =>
    if t.isEmpty then none
    else
      let content := lowerStr t
      let counts := keywords.map (fun k => (k, pyCount content (lowerStr k)))
      let matched := counts.filter (fun p => decide (0 < p.2))
      if matched.isEmpty then none
      else
        some { file_path := pr.1, file_name := pr.2,
               relevance_score := (matched.map (fun p => p.2 * 2)).sum,
               match_details := "content: ".data ++
                 joinComma (matched.map (fun p => p.1 ++ '(' :: (Nat.repr p.2).data ++ [')'])),
               search_type := sContent }

/-- `search_by_content` from search_functions.py, driven by the modelled
walker output and extraction environment. -/
def search_by_content (env : ExtractEnv) (walk : Walk) (keywords : List Str)
    (existing_files : List Str) (max_results : Nat) : List MatchRecord :=
  if keywords.isEmpty then []
  else
    capGoEach (contentMatchRecord env keywords) (fun pr => existing_files.contains pr.1)
      max_results (get_valid_files walk) []

/-! Query parser fallback (utils.py, `fallback_parse_prompt`). -/

/-- The structured criteria record (models.py `SearchParams`). -/
structure SearchParams where
  file_types : List Str
  filename_keywords : List Str
  content_keywords : List Str
  search_sequence : List Str
  search_logic : Str
deriving DecidableEq

/-- The fixed evaluation sequence. -/
def stdSequence : List Str := [sFileType, sFilename, sContent]

/-- Word characters of the regex `\w` (ASCII). -/
def isWordChar (c : Char) : Bool := c.isAlphanum || c == '_'

/-- One left-to-right scan realising both `re.findall(r'\.(\w+)', s)` (first
component: the captured extension bodies) and `re.sub(r'\.(\w+)', '', s)`
(second component: the text with the matches removed). -/
def scanExtsFuel : Nat → Str → List Str × Str
  | _, [] => ([], [])
  | 0, s => ([], s)
  | fuel + 1, c :: s =>
    if c == '.' && !(s.takeWhile isWordChar).isEmpty then
      let run := s.takeWhile isWordChar
      let p := scanExtsFuel fuel (s.drop run.length)
      (run :: p.1, p.2)
    else
      let p := scanExtsFuel fuel s
      (p.1, c :: p.2)

/-- The regex scan, with fuel as in `countNEFuel`. -/
def scanExts (s : Str) : List Str × Str := scanExtsFuel s.length s

/-- The literal phrases whose presence switches the fallback policy to OR. -/
def orWords : List Str := [ " or ".data, " either ".data, " any ".data ]

/-- `fallback_parse_prompt` from utils.py (lines 138-163). -/
def fallback_parse_prompt (prompt : Str) : SearchParams :=
  let prompt_lower := lowerStr prompt
  let scanned := scanExts prompt_lower
  let file_types := scanned.1.map (fun e => '.' :: e)
  let keywords :=
    ((splitWs scanned.2).filter (fun w => !(pyStrip w).isEmpty && decide (2 < w.length))).map pyStrip
  let search_logic := if orWords.any (fun w => hasSub w prompt_lower) then sOR else sAND
  { file_types := file_types, filename_keywords := keywords, content_keywords := keywords,
    search_sequence := stdSequence, search_logic := search_logic }

/-! Aggregator (fastmcp_file_search.py, `search_files`). -/

/-- The external output record (models.py `SearchResult`). -/
structure SearchResult where
  file_path : Str
  relative_path : Str
  file_name : Str
  relevance_score : Nat
  match_details : Str
  search_type : Str
deriving DecidableEq

/-- Python dict insertion: an existing key is updated in place, a new key is
appended at the end. -/
def dictInsert (d : List (Str × MatchRecord)) (r : MatchRecord) : List (Str × MatchRecord) :=
  if d.any (fun p => p.1 == r.file_path) then
    d.map (fun p => if p.1 == r.file_path then (p.1, r) else p)
  else d ++ [(r.file_path, r)]

/-- The dict comprehension `{r['file_path']: r for r in results}`, as an
insertion-ordered association list. -/
def dictOf (rs : List MatchRecord) : List (Str × MatchRecord) := rs.foldl dictInsert []

/-- Membership test `path in dict`. -/
def dictHas (d : List (Str × MatchRecord)) (p : Str) : Bool := d.any (fun q => q.1 == p)

/-- The matcher invocation of one criterion kind, with the arguments the
aggregator passes (`max_results * 10`, empty `existing_files`). -/
def matcherResults (env : ExtractEnv) (walk : Walk) (params : SearchParams) (maxr : Nat)
    (st : Str) : List MatchRecord :=
  if st == sFileType then search_by_file_type walk params.file_types (maxr * 10)
  else if st == sFilename then search_by_filename walk params.filename_keywords [] (maxr * 10)
  else if st == sContent then search_by_content env walk params.content_keywords [] (maxr * 10)
  else []

/-- Whether a criterion kind is active: its branch of the loop tests both the
sequence tag and non-emptiness of the corresponding set. -/
def isActive (params : SearchParams) (st : Str) : Bool :=
  (st == sFileType && !params.file_types.isEmpty)
    || (st == sFilename && !params.filename_keywords.isEmpty)
    || (st == sContent && !params.content_keywords.isEmpty)

/-- One iteration of the criterion loop of `search_files` (lines 34-74).
On the first active criterion the candidate dict is adopted; on later active
criteria the running dict is filtered to paths present in the new criterion's
dict, keeping the running dict's records. -/
def stepCriterion (env : ExtractEnv) (walk : Walk) (params : SearchParams) (maxr : Nat)
    (cand : Option (List (Str × MatchRecord))) (st : Str) : Option (List (Str × MatchRecord)) :=
  if st == sFileType && !params.file_types.isEmpty then
    let d2 := dictOf (search_by_file_type walk params.file_types (maxr * 10))
    match cand with
    | none => some d2
    | some d => some (d.filter (fun p => dictHas d2 p.1))
  else if st == sFilename && !params.filename_keywords.isEmpty then
    let d2 := dictOf (search_by_filename walk params.filename_keywords [] (maxr * 10))
    match cand with
    | none => some d2
    | some d => some (d.filter (fun p => dictHas d2 p.1))
  else if st == sContent && !params.content_keywords.isEmpty then
    let d2 := dictOf (search_by_content env walk params.content_keywords [] (maxr * 10))
    match cand with
    | none => some d2
    | some d => some (d.filter (fun p => dictHas d2 p.1))
  else cand

/-- `candidate_files` after the whole criterion loop. -/
def candidateFold (env : ExtractEnv) (walk : Walk) (params : SearchParams) (maxr : Nat) :
    Option (List (Str × MatchRecord)) :=
  params.search_sequence.foldl (stepCriterion env walk params maxr) none

/-- `list(candidate_files.values()) if candidate_files else []` (line 77). -/
def dictResults (env : ExtractEnv) (walk : Walk) (params : SearchParams) (maxr : Nat) :
    List MatchRecord :=
  match candidateFold env walk params maxr with
  | some d => d.map Prod.snd
  | none => []

/-- `type_priority.get(search_type, 0)`: the records built by the matchers
always carry a `search_type`, so the inner `'content'` default of line 84
never fires. -/
def typePriority (st : Str) : Nat :=
  if st == sFileType then 3 else if st == sFilename then 2 else if st == sContent then 1 else 0

/-- The sort key of line 84: `(type priority, relevance score)`. -/
def recKey (r : MatchRecord) : Nat × Nat := (typePriority r.search_type, r.relevance_score)

/-- The same key on the converted output records. -/
def resKey (r : SearchResult) : Nat × Nat := (typePriority r.search_type, r.relevance_score)

/-- The comparator realising `list.sort(key=..., reverse=True)`: a stable
sort placing larger keys (lexicographically) first and preserving the
original order of equal keys. -/
def sortLE (a b : MatchRecord) : Bool :=
  decide ((recKey b).1 < (recKey a).1)
    || (decide ((recKey b).1 = (recKey a).1) && decide ((recKey b).2 ≤ (recKey a).2))

/-- The sorted result list of line 84. -/
def sortedResults (env : ExtractEnv) (walk : Walk) (params : SearchParams) (maxr : Nat) :
    List MatchRecord :=
  (dictResults env walk params maxr).mergeSort sortLE

/-- The `SearchResult` conversion of lines 89-102, with the relative-path
computation `file_path.replace(folder_path, '').lstrip('/')` of line 92. -/
def toSearchResult (folder : Str) (r : MatchRecord) : SearchResult :=
  { file_path := r.file_path,
    relative_path := lstripSlash (pyReplace r.file_path folder []),
    file_name := r.file_name,
    relevance_score := r.relevance_score,
    match_details := r.match_details,
    search_type := r.search_type }

/-- `search_files` from fastmcp_file_search.py, after folder validation and
prompt parsing: run the criterion loop, sort, truncate to `max_results`,
convert. -/
def search_files (env : ExtractEnv) (folder : Str) (walk : Walk) (params : SearchParams)
    (max_results : Nat) : List SearchResult :=
  ((sortedResults env walk params max_results).take max_results).map (toSearchResult folder)

/-- Count of active criterion kinds among the three sets. -/
def activeCount (params : SearchParams) : Nat :=
  (if params.file_types.isEmpty then 0 else 1)
    + (if params.filename_keywords.isEmpty then 0 else 1)
    + (if params.content_keywords.isEmpty then 0 else 1)

/-! Concrete fixtures used by the claim theorems. -/

/-- An extraction environment in which every optional library is present but
every call fails and every raw read errors: content extraction is inert. -/
def envTriv : ExtractEnv :=
  { hasPyPDF2 := true, hasDocx := true, hasOpenpyxl := true,
    guessMime := fun _ => none, pdfText := fun _ => .exn, docxText := fun _ => .exn,
    jsonText := fun _ => .exn, xlsxText := fun _ => .exn, csvText := fun _ => .exn,
    fileRaw := fun _ => none }

/-- The prompt of the fallback-parser claim. -/
def promptML : Str := "find pdf files about machine learning".data

/-- The keywords the fallback parser actually produces for `promptML`. -/
def kwsML : List Str :=
  [ "find".data, "pdf".data, "files".data, "about".data, "machine".data, "learning".data ]

/-- A directory tree whose root path recurs deeper in the tree. -/
def walkC4 : Walk := [("/a/b/a".data, ["x.txt".data])]

/-- Criteria matching `.txt` files only. -/
def pC4 : SearchParams := ⟨[".txt".data], [], [], stdSequence, sAND⟩

/-- A single-file tree for the aggregator record-provenance claim. -/
def walkC1 : Walk := [("/r".data, ["ml.txt".data])]

/-- Criteria with two active kinds: file type `.txt` and filename keyword `ml`. -/
def pC1 : SearchParams := ⟨[".txt".data], ["ml".data], [], stdSequence, sAND⟩

/-- A tree holding a file whose base name contains the `.git` marker. -/
def walkC6 : Walk := [("/r".data, ["x.git.txt".data])]

/-- Criteria matching `.txt` files only (separate fixture for the walker claim). -/
def pC6 : SearchParams := ⟨[".txt".data], [], [], stdSequence, sAND⟩

/-- An environment with the PDF library absent and raw reads succeeding. -/
def envC5 : ExtractEnv :=
  { envTriv with hasPyPDF2 := false, fileRaw := fun _ => some ("machine learning".data) }

/-- A tree holding a single PDF file. -/
def walkC5 : Walk := [("/r".data, ["doc.pdf".data])]

/-- A tree with two files whose names both contain `ml`. -/
def walkC8 : Walk := [("/r".data, ["ml1.txt".data, "ml2.txt".data])]

/-- An environment where every raw read returns the same matching text. -/
def envC9 : ExtractEnv := { envTriv with fileRaw := fun _ => some ("machine stuff".data) }

/-- An environment with the word-processor library absent. -/
def envC5w : ExtractEnv := { envTriv with hasDocx := false }

/-- A tree with two text files, both with matching content. -/
def walkC9 : Walk := [("/r".data, ["a.txt".data, "b.txt".data])]

/-! Helper lemmas about the scan loops. -/

/-- Any record returned by `capGo` beyond the accumulator was produced by the
record function on one of the scanned candidates. -/
theorem capGo_mem (rec : Str × Str → Option MatchRecord) (maxr : Nat) :
    ∀ (files : List (Str × Str)) (acc : List MatchRecord) (m : MatchRecord),
      m ∈ capGo rec maxr files acc → m ∈ acc ∨ ∃ f ∈ files, rec f = some m := by
  intro files
  induction files with
  | nil => intro acc m h; exact Or.inl h
  | cons f fs ih =>
    intro acc m h
    unfold capGo at h
    cases hrec : rec f with
    | none =>
      rw [hrec] at h
      rcases ih _ _ h with h1 | ⟨g, hg, hgm⟩
      · exact Or.inl h1
      · exact Or.inr ⟨g, List.mem_cons_of_mem _ hg, hgm⟩
    | some r =>
      rw [hrec] at h
      have h' : m ∈ if maxr ≤ (acc ++ [r]).length then acc ++ [r]
          else capGo rec maxr fs (acc ++ [r]) := h
      have fin : m ∈ acc ++ [r] → m ∈ acc ∨ ∃ f' ∈ f :: fs, rec f' = some m := by
        intro hm
        rcases List.mem_append.1 hm with h1 | h1
        · exact Or.inl h1
        · rcases List.mem_singleton.1 h1 with rfl
          exact Or.inr ⟨f, List.mem_cons_self f fs, hrec⟩
      by_cases hlen : maxr ≤ (acc ++ [r]).length
      · rw [if_pos hlen] at h'
        exact fin h'
      · rw [if_neg hlen] at h'
        rcases ih _ _ h' with h1 | ⟨g, hg, hgm⟩
        · exact fin h1
        · exact Or.inr ⟨g, List.mem_cons_of_mem _ hg, hgm⟩

/-- Any record returned by `capGoEach` beyond the accumulator was produced by
the record function on a non-skipped scanned candidate. -/
theorem capGoEach_mem (rec : Str × Str → Option MatchRecord) (skip : Str × Str → Bool)
    (maxr : Nat) :
    ∀ (files : List (Str × Str)) (acc : List MatchRecord) (m : MatchRecord),
      m ∈ capGoEach rec skip maxr files acc → m ∈ acc ∨ ∃ f ∈ files, rec f = some m := by
  intro files
  induction files with
  | nil => intro acc m h; exact Or.inl h
  | cons f fs ih =>
    intro acc m h
    unfold capGoEach at h
    by_cases hskip : skip f
    · rw [if_pos hskip] at h
      rcases ih _ _ h with h1 | ⟨g, hg, hgm⟩
      · exact Or.inl h1
      · exact Or.inr ⟨g, List.mem_cons_of_mem _ hg, hgm⟩
    · rw [if_neg hskip] at h
      have h' : m ∈ if maxr ≤ (acc ++ (match rec f with | some r => [r] | none => [])).length
          then acc ++ (match rec f with | some r => [r] | none => [])
          else capGoEach rec skip maxr fs
            (acc ++ (match rec f with | some r => [r] | none => [])) := h
      have fin : ∀ m', m' ∈ acc ++ (match rec f with | some r => [r] | none => []) →
          m' ∈ acc ∨ ∃ f' ∈ f :: fs, rec f' = some m' := by
        intro m' hm
        rcases List.mem_append.1 hm with h1 | h1
        · exact Or.inl h1
        · cases hrec : rec f with
          | none => rw [hrec] at h1; cases h1
          | some r =>
            rw [hrec] at h1
            rcases List.mem_singleton.1 h1 with rfl
            exact Or.inr ⟨f, List.mem_cons_self f fs, hrec⟩
      by_cases hlen : maxr ≤ (acc ++ (match rec f with | some r => [r] | none => [])).length
      · rw [if_pos hlen] at h'
        exact fin m h'
      · rw [if_neg hlen] at h'
        rcases ih _ _ h' with h1 | ⟨g, hg, hgm⟩
        · exact fin m h1
        · exact Or.inr ⟨g, List.mem_cons_of_mem _ hg, hgm⟩

/-- When the number of matching candidates fits under the cap, `capGo`
returns every match, in discovery order. -/
theorem capGo_eq_filterMap (rec : Str × Str → Option MatchRecord) (maxr : Nat) :
    ∀ (files : List (Str × Str)) (acc : List MatchRecord),
      acc.length + files.countP (fun f => (rec f).isSome) ≤ maxr →
      capGo rec maxr files acc = acc ++ files.filterMap rec := by
  intro files
  induction files with
  | nil => intro acc h; simp [capGo]
  | cons f fs ih =>
    intro acc h
    rw [List.countP_cons] at h
    unfold capGo
    cases hrec : rec f with
    | none =>
      rw [ih acc (by simp [hrec] at h; omega)]
      simp [List.filterMap_cons, hrec]
    | some r =>
      simp only [hrec, Option.isSome_some, if_pos] at h
      show (if maxr ≤ (acc ++ [r]).length then acc ++ [r] else capGo rec maxr fs (acc ++ [r]))
        = acc ++ (f :: fs).filterMap rec
      by_cases hlen : maxr ≤ (acc ++ [r]).length
      · rw [if_pos hlen]
        rw [List.length_append, List.length_singleton] at hlen
        have hfs : fs.countP (fun f => (rec f).isSome) = 0 := by omega
        have hnil : fs.filterMap rec = [] := by
          rw [List.filterMap_eq_nil_iff]
          intro a ha
          have := List.countP_eq_zero.1 hfs a ha
          simpa using this
        simp [List.filterMap_cons, hrec, hnil]
      · rw [if_neg hlen, ih (acc ++ [r]) (by simp; omega)]
        simp [List.filterMap_cons, hrec]

/-- When the number of matching candidates fits under the cap and nothing is
skipped, `capGoEach` returns every match, in discovery order. -/
theorem capGoEach_eq_filterMap (rec : Str × Str → Option MatchRecord) (maxr : Nat) :
    ∀ (files : List (Str × Str)) (acc : List MatchRecord),
      acc.length + files.countP (fun f => (rec f).isSome) ≤ maxr →
      capGoEach rec (fun _ => false) maxr files acc = acc ++ files.filterMap rec := by
  intro files
  induction files with
  | nil => intro acc h; simp [capGoEach]
  | cons f fs ih =>
    intro acc h
    rw [List.countP_cons] at h
    unfold capGoEach
    rw [if_neg (by simp)]
    cases hrec : rec f with
    | none =>
      simp only [hrec, Option.isSome_none] at h
      show (if maxr ≤ (acc ++ ([] : List MatchRecord)).length then acc ++ ([] : List MatchRecord)
          else capGoEach rec (fun _ => false) maxr fs (acc ++ ([] : List MatchRecord)))
        = acc ++ (f :: fs).filterMap rec
      rw [List.append_nil]
      by_cases hlen : maxr ≤ acc.length
      · rw [if_pos hlen]
        have hfs : fs.countP (fun f => (rec f).isSome) = 0 := by omega
        have hnil : fs.filterMap rec = [] := by
          rw [List.filterMap_eq_nil_iff]
          intro a ha
          have := List.countP_eq_zero.1 hfs a ha
          simpa using this
        simp [List.filterMap_cons, hrec, hnil]
      · rw [if_neg hlen, ih acc (by omega)]
        simp [List.filterMap_cons, hrec]
    | some r =>
      simp only [hrec, Option.isSome_some, if_pos] at h
      show (if maxr ≤ (acc ++ [r]).length then acc ++ [r]
          else capGoEach rec (fun _ => false) maxr fs (acc ++ [r]))
        = acc ++ (f :: fs).filterMap rec
      by_cases hlen : maxr ≤ (acc ++ [r]).length
      · rw [if_pos hlen]
        rw [List.length_append, List.length_singleton] at hlen
        have hfs : fs.countP (fun f => (rec f).isSome) = 0 := by omega
        have hnil : fs.filterMap rec = [] := by
          rw [List.filterMap_eq_nil_iff]
          intro a ha
          have := List.countP_eq_zero.1 hfs a ha
          simpa using this
        simp [List.filterMap_cons, hrec, hnil]
      · rw [if_neg hlen, ih (acc ++ [r]) (by simp; omega)]
        simp [List.filterMap_cons, hrec]

/-- The scan loop of the content matcher only ever extends its accumulator. -/
theorem capGoEach_extends (rec : Str × Str → Option MatchRecord) (skip : Str × Str → Bool)
    (maxr : Nat) :
    ∀ (files : List (Str × Str)) (acc : List MatchRecord),
      ∃ rest, capGoEach rec skip maxr files acc = acc ++ rest := by
  intro files
  induction files with
  | nil => intro acc; exact ⟨[], by simp [capGoEach]⟩
  | cons f fs ih =>
    intro acc
    unfold capGoEach
    by_cases hskip : skip f
    · rw [if_pos hskip]; exact ih acc
    · rw [if_neg hskip]
      by_cases hlen : maxr ≤ (acc ++ (match rec f with | some r => [r] | none => [])).length
      · rw [if_pos hlen]
        exact ⟨_, rfl⟩
      · rw [if_neg hlen]
        rcases ih (acc ++ (match rec f with | some r => [r] | none => [])) with ⟨rest, hrest⟩
        exact ⟨(match rec f with | some r => [r] | none => []) ++ rest,
          by rw [hrest, List.append_assoc]⟩

/-! Characterizations of the per-file record functions. -/

/-- A filename record exists exactly when some keyword is a case-insensitive
substring of the base name, and then its fields are determined. -/
theorem filenameRecord_isSome_iff (kws : List Str) (pr : Str × Str) :
    (filenameRecord kws pr).isSome = true
      ↔ ∃ k ∈ kws, hasSub (lowerStr k) (lowerStr pr.2) = true := by
  simp only [filenameRecord]
  by_cases hm : (kws.filter fun k => hasSub (lowerStr k) (lowerStr pr.2)).isEmpty
  · rw [if_pos hm]
    rw [List.isEmpty_iff, List.filter_eq_nil_iff] at hm
    simp only [Option.isSome_none, Bool.false_eq_true, false_iff]
    rintro ⟨k, hk, hp⟩
    exact hm k hk hp
  · rw [if_neg hm]
    rw [List.isEmpty_iff] at hm
    simp only [Option.isSome_some, true_iff]
    rcases List.exists_mem_of_ne_nil _ hm with ⟨k, hk⟩
    exact ⟨k, (List.mem_filter.1 hk).1, (List.mem_filter.1 hk).2⟩

/-- The fields of a returned filename record. -/
theorem filenameRecord_some (kws : List Str) (pr : Str × Str) (m : MatchRecord)
    (h : filenameRecord kws pr = some m) :
    m.file_path = pr.1 ∧ m.search_type = sFilename ∧
    m.relevance_score = 10 * (kws.filter fun k => hasSub (lowerStr k) (lowerStr pr.2)).length := by
  simp only [filenameRecord] at h
  by_cases hm : (kws.filter fun k => hasSub (lowerStr k) (lowerStr pr.2)).isEmpty
  · rw [if_pos hm] at h; cases h
  · rw [if_neg hm] at h
    cases Option.some.inj h
    exact ⟨rfl, rfl, rfl⟩

/-- The path field of a returned file-type record. -/
theorem fileTypeRecord_some (fts : List Str) (pr : Str × Str) (m : MatchRecord)
    (h : fileTypeRecord fts pr = some m) : m.file_path = pr.1 := by
  simp only [fileTypeRecord] at h
  by_cases hc : (fts.map lowerStr).contains (lowerStr (splitextExt pr.2))
  · rw [if_pos hc] at h
    cases Option.some.inj h
    rfl
  · rw [if_neg hc] at h; cases h

/-- Doubling the sum of positive counts equals twice the sum of all counts:
the loop adds `count * 2` only for keywords with a positive count, but zero
counts contribute nothing. -/
theorem sum_matched_twice (g : Str → Nat) (kws : List Str) :
    (((kws.map (fun k => (k, g k))).filter (fun p => decide (0 < p.2))).map
        (fun p => p.2 * 2)).sum
      = 2 * ((kws.map g).sum) := by
  induction kws with
  | nil => simp
  | cons k ks ih =>
    by_cases h : 0 < g k
    · simp only [List.map_cons, List.filter_cons, decide_eq_true_eq, if_pos h, List.sum_cons, ih]
      omega
    · simp only [List.map_cons, List.filter_cons, decide_eq_true_eq, if_neg h, List.sum_cons, ih]
      omega

/-- A content record for a file with non-empty extracted text exists exactly
when some keyword occurs, and then its path, kind and score are determined. -/
theorem contentMatchRecord_eval (env : ExtractEnv) (kws : List Str) (pr : Str × Str) (t : Str)
    (hx : extractContent env pr.1 pr.2 = some t) (ht : t ≠ []) :
    ((contentMatchRecord env kws pr).isSome = true
        ↔ ∃ k ∈ kws, 0 < pyCount (lowerStr t) (lowerStr k)) ∧
    ∀ m, contentMatchRecord env kws pr = some m →
      m.file_path = pr.1 ∧ m.search_type = sContent ∧
      m.relevance_score = 2 * ((kws.map (fun k => pyCount (lowerStr t) (lowerStr k))).sum) := by
  have hne : t.isEmpty = false := by
    rw [List.isEmpty_eq_false]
    exact ht
  simp only [contentMatchRecord, hx, hne, Bool.false_eq_true, if_false]
  by_cases hm : ((kws.map (fun k => (k, pyCount (lowerStr t) (lowerStr k)))).filter
      (fun p => decide (0 < p.2))).isEmpty
  · rw [if_pos hm]
    rw [List.isEmpty_iff, List.filter_eq_nil_iff] at hm
    constructor
    · simp only [Option.isSome_none, Bool.false_eq_true, false_iff]
      rintro ⟨k, hk, hp⟩
      exact hm (k, pyCount (lowerStr t) (lowerStr k))
        (List.mem_map.2 ⟨k, hk, rfl⟩) (by simpa using hp)
    · intro m hmm; cases hmm
  · rw [if_neg hm]
    rw [List.isEmpty_iff] at hm
    constructor
    · simp only [Option.isSome_some, true_iff]
      rcases List.exists_mem_of_ne_nil _ hm with ⟨p, hp⟩
      have h1 := List.mem_filter.1 hp
      rcases List.mem_map.1 h1.1 with ⟨k, hk, hke⟩
      refine ⟨k, hk, ?_⟩
      have := h1.2
      rw [← hke] at this
      simpa using this
    · intro m hmm
      cases Option.some.inj hmm
      refine ⟨rfl, rfl, ?_⟩
      exact sum_matched_twice (fun k => pyCount (lowerStr t) (lowerStr k)) kws

/-- The path field of a returned content record. -/
theorem contentMatchRecord_path (env : ExtractEnv) (kws : List Str) (pr : Str × Str)
    (m : MatchRecord) (h : contentMatchRecord env kws pr = some m) : m.file_path = pr.1 := by
  cases hx : extractContent env pr.1 pr.2 with
  | none => simp [contentMatchRecord, hx] at h
  | some t =>
    simp only [contentMatchRecord, hx] at h
    by_cases hne : t.isEmpty
    · rw [if_pos hne] at h; cases h
    · rw [if_neg hne] at h
      by_cases hm : ((kws.map (fun k => (k, pyCount (lowerStr t) (lowerStr k)))).filter
          (fun p => decide (0 < p.2))).isEmpty
      · rw [if_pos hm] at h; cases h
      · rw [if_neg hm] at h
        cases Option.some.inj h
        rfl

/-- An empty text never produces a content record. -/
theorem contentMatchRecord_empty (env : ExtractEnv) (kws : List Str) (pr : Str × Str)
    (hx : extractContent env pr.1 pr.2 = some []) : contentMatchRecord env kws pr = none := by
  simp [contentMatchRecord, hx]

/-! Dict lemmas (the Python dict comprehension as an association list). -/

/-- Membership after one dict insertion. -/
theorem dictInsert_mem (d : List (Str × MatchRecord)) (r : MatchRecord)
    (px : Str × MatchRecord) (h : px ∈ dictInsert d r) :
    px ∈ d ∨ px = (r.file_path, r) := by
  unfold dictInsert at h
  by_cases hc : d.any (fun p => p.1 == r.file_path)
  · rw [if_pos hc] at h
    rcases List.mem_map.1 h with ⟨q, hq, hqe⟩
    by_cases hqc : q.1 == r.file_path
    · rw [if_pos hqc] at hqe
      right
      have hq1 : q.1 = r.file_path := by simpa using hqc
      rw [← hqe, hq1]
    · rw [if_neg hqc] at hqe
      left
      rw [← hqe]
      exact hq
  · rw [if_neg hc] at h
    rcases List.mem_append.1 h with h1 | h1
    · exact Or.inl h1
    · exact Or.inr (List.mem_singleton.1 h1)

/-- Membership in a fold of dict insertions. -/
theorem foldl_dictInsert_mem :
    ∀ (rs : List MatchRecord) (d : List (Str × MatchRecord)) (px : Str × MatchRecord),
      px ∈ rs.foldl dictInsert d → px ∈ d ∨ (px.2 ∈ rs ∧ px.1 = px.2.file_path) := by
  intro rs
  induction rs with
  | nil => intro d px h; exact Or.inl h
  | cons r rs ih =>
    intro d px h
    rcases ih (dictInsert d r) px h with h1 | ⟨h2, h3⟩
    · rcases dictInsert_mem d r px h1 with h4 | h4
      · exact Or.inl h4
      · right
        rw [h4]
        exact ⟨List.mem_cons_self r rs, rfl⟩
    · exact Or.inr ⟨List.mem_cons_of_mem _ h2, h3⟩

/-- Every dict entry is a record of the source list, keyed by its path. -/
theorem dictOf_mem (rs : List MatchRecord) (px : Str × MatchRecord) (h : px ∈ dictOf rs) :
    px.2 ∈ rs ∧ px.1 = px.2.file_path := by
  rcases foldl_dictInsert_mem rs [] px h with h1 | h1
  · cases h1
  · exact h1

/-- A present entry makes the membership test true. -/
theorem dictHas_of_mem (d : List (Str × MatchRecord)) (px : Str × MatchRecord) (h : px ∈ d) :
    dictHas d px.1 = true := by
  unfold dictHas
  rw [List.any_eq_true]
  exact ⟨px, h, by simp⟩

/-- A true membership test on a comprehension dict names a source record. -/
theorem exists_of_dictHas (rs : List MatchRecord) (p : Str) (h : dictHas (dictOf rs) p = true) :
    ∃ m ∈ rs, m.file_path = p := by
  unfold dictHas at h
  rw [List.any_eq_true] at h
  rcases h with ⟨q, hq, hqe⟩
  have h2 := dictOf_mem rs q hq
  have h3 : q.1 = p := by simpa using hqe
  exact ⟨q.2, h2.1, by rw [← h2.2, h3]⟩

/-! Provenance of matcher outputs. -/

/-- Every file-type result comes from a walker candidate. -/
theorem search_by_file_type_mem (walk : Walk) (fts : List Str) (maxr : Nat) (m : MatchRecord)
    (h : m ∈ search_by_file_type walk fts maxr) :
    ∃ pr ∈ get_valid_files walk, m.file_path = pr.1 ∧ fileTypeRecord fts pr = some m := by
  unfold search_by_file_type at h
  by_cases he : fts.isEmpty
  · rw [if_pos he] at h; cases h
  · rw [if_neg he] at h
    rcases capGo_mem _ _ _ _ _ h with h1 | ⟨f, hf, hfm⟩
    · cases h1
    · exact ⟨f, hf, fileTypeRecord_some fts f m hfm, hfm⟩

/-- Every filename result comes from a non-skipped walker candidate. -/
theorem search_by_filename_mem (walk : Walk) (kws ex : List Str) (maxr : Nat) (m : MatchRecord)
    (h : m ∈ search_by_filename walk kws ex maxr) :
    ∃ pr ∈ get_valid_files walk, m.file_path = pr.1 ∧ filenameRecord kws pr = some m := by
  unfold search_by_filename at h
  by_cases he : kws.isEmpty
  · rw [if_pos he] at h; cases h
  · rw [if_neg he] at h
    rcases capGo_mem _ _ _ _ _ h with h1 | ⟨f, hf, hfm⟩
    · cases h1
    · by_cases hex : ex.contains f.1
      · rw [if_pos hex] at hfm; cases hfm
      · rw [if_neg hex] at hfm
        exact ⟨f, hf, (filenameRecord_some kws f m hfm).1, hfm⟩

/-- Every content result comes from a non-skipped walker candidate. -/
theorem search_by_content_mem (env : ExtractEnv) (walk : Walk) (kws ex : List Str)
    (maxr : Nat) (m : MatchRecord) (h : m ∈ search_by_content env walk kws ex maxr) :
    ∃ pr ∈ get_valid_files walk, m.file_path = pr.1 ∧ contentMatchRecord env kws pr = some m := by
  unfold search_by_content at h
  by_cases he : kws.isEmpty
  · rw [if_pos he] at h; cases h
  · rw [if_neg he] at h
    rcases capGoEach_mem _ _ _ _ _ _ h with h1 | ⟨f, hf, hfm⟩
    · cases h1
    · exact ⟨f, hf, contentMatchRecord_path env kws f m hfm, hfm⟩

/-- Merge sort leaves a list of length at most one unchanged. -/
theorem mergeSort_short {α : Type} (le : α → α → Bool) (l : List α) (h : l.length ≤ 1) :
    l.mergeSort le = l := by
  match l with
  | [] => simp
  | [a] => simp
  | a :: b :: t => simp at h

/-- Evaluation helper: when at most one record survives the criterion loop,
the sorting step is the identity. -/
theorem search_files_small (env : ExtractEnv) (folder : Str) (walk : Walk)
    (params : SearchParams) (maxr : Nat)
    (h : (dictResults env walk params maxr).length ≤ 1) :
    search_files env folder walk params maxr
      = ((dictResults env walk params maxr).take maxr).map (toSearchResult folder) := by
  unfold search_files sortedResults
  rw [mergeSort_short _ _ h]

/-! Claim C2: the deterministic fallback parser on
`"find pdf files about machine learning"`. -/

/-- C2 counterexample: the prompt contains no literal dot, so the regex
`\.(\w+)` extracts nothing and the fallback parser returns an empty
`file_types` list, not `[".pdf"]` as the claim states. -/
theorem C2_counterexample :
    (fallback_parse_prompt promptML).file_types = ([] : List Str) ∧
    (fallback_parse_prompt promptML).file_types ≠ [".pdf".data] := by decide

/-- C2 amended: on the prompt `"find pdf files about machine learning"` the
fallback parser returns no file types (extensions are only extracted from
dot-prefixed mentions, and the prompt has none), keyword lists
`["find", "pdf", "files", "about", "machine", "learning"]` (every
whitespace token of length > 2, in order, used for both filename and content
keywords), the standard evaluation sequence, and combination policy AND. -/
theorem C2_amended_fallback_parse :
    fallback_parse_prompt promptML =
      { file_types := [], filename_keywords := kwsML, content_keywords := kwsML,
        search_sequence := stdSequence, search_logic := sAND } := by decide

/-! Claim C3: the `search_logic` field never influences the output. -/

/-- C3: two runs of the search pipeline whose parsed criteria differ only in
the `search_logic` field produce identical ordered results: the aggregator
applies path intersection unconditionally and never reads `search_logic`. -/
theorem C3_search_logic_irrelevant (env : ExtractEnv) (folder : Str) (walk : Walk)
    (maxr : Nat) (ft fk ck : List Str) (seq : List Str) (l₁ l₂ : Str) :
    search_files env folder walk ⟨ft, fk, ck, seq, l₁⟩ maxr
      = search_files env folder walk ⟨ft, fk, ck, seq, l₂⟩ maxr := rfl

/-! Claim C4: the relative path of a returned result. -/

/-- C4: the source computes the relative path with
`file_path.replace(folder_path, '')`, which removes every occurrence of the
root path, not only the leading one: for root `/a` and file `/a/b/a/x.txt`
the reported relative path is `b/x.txt`, while removing only the root-path
prefix would give `b/a/x.txt`.  The walker's correctly computed
`os.path.relpath` value is discarded by the aggregator. -/
theorem C4_relative_path_replaces_all :
    (search_files envTriv ("/a".data) walkC4 pC4 5).map (fun r => r.relative_path)
        = ["b/x.txt".data] ∧
    ("b/x.txt".data : Str) ≠ "b/a/x.txt".data := by
  rw [search_files_small envTriv ("/a".data) walkC4 pC4 5 (by decide)]
  decide

/-! Claim C1, counterexample part: the reported record is the first active
matcher's, not the last's. -/

/-- C1 counterexample: with file-type and filename criteria both active, the
last active matcher (filename) returns the record (score 10, kind
`filename`) for `/r/ml.txt`, but the final result reports score 15 and kind
`file_type` — the record of the first active matcher — because the
intersection step keeps the running dict's records. -/
theorem C1_counterexample :
    (search_by_filename walkC1 ["ml".data] [] 50).map
        (fun m => (m.file_path, m.relevance_score, m.search_type))
      = [("/r/ml.txt".data, 10, sFilename)] ∧
    ∃ r ∈ search_files envTriv ("/r".data) walkC1 pC1 5,
      r.file_path = "/r/ml.txt".data ∧ r.relevance_score ≠ 10 ∧ r.search_type ≠ sFilename := by
  rw [search_files_small envTriv ("/r".data) walkC1 pC1 5 (by decide)]
  decide

/-! Claim C6, counterexample part: the denylist is tested against the
directory path only, not the file's full path. -/

/-- C6 counterexample: a file named `x.git.txt` in a clean directory has
`.git` in its full path, yet the walker yields it and it reaches the final
result. -/
theorem C6_counterexample :
    hasSub (".git".data) (lowerStr ("/r/x.git.txt".data)) = true ∧
    (get_valid_files walkC6).map Prod.fst = ["/r/x.git.txt".data] ∧
    ∃ r ∈ search_files envTriv ("/r".data) walkC6 pC6 5,
      r.file_path = "/r/x.git.txt".data := by
  rw [search_files_small envTriv ("/r".data) walkC6 pC6 5 (by decide)]
  decide

/-! Claim C5, counterexample part: PDF with the library absent falls back to
a raw text read, not to an empty string. -/

/-- C5 counterexample: with the PDF library absent, the extraction dispatch
reads the file as raw text; here that text is non-empty and the file
qualifies as a content match, contradicting the claim that library absence
degrades the extracted text to the empty string. -/
theorem C5_counterexample :
    envC5.hasPyPDF2 = false ∧
    extractContent envC5 ("/r/doc.pdf".data) ("doc.pdf".data)
      = some ("machine learning".data) ∧
    ("machine learning".data : Str) ≠ [] ∧
    ∃ m ∈ search_by_content envC5 walkC5 ["machine".data] [] 10,
      m.file_path = "/r/doc.pdf".data ∧ 0 < m.relevance_score := by decide

/-! Claim C8, counterexample part: the result cap can omit a matching file. -/

/-- C8 counterexample: with cap 1, the file `ml2.txt` matches the keyword
`ml` but receives no record because the matcher stops after the first
appended result. -/
theorem C8_counterexample :
    hasSub (lowerStr ("ml".data)) (lowerStr ("ml2.txt".data)) = true ∧
    (search_by_filename walkC8 ["ml".data] [] 1).map (fun m => m.file_path)
      = ["/r/ml1.txt".data] ∧
    ¬ ∃ m ∈ search_by_filename walkC8 ["ml".data] [] 1,
        m.file_path = "/r/ml2.txt".data := by decide

/-! Claim C9, counterexample part: the result cap can omit a matching file. -/

/-- C9 counterexample: `b.txt` has non-empty extracted text containing the
keyword, but with cap 1 the content matcher stops after `a.txt` and returns
no record for it. -/
theorem C9_counterexample :
    extractContent envC9 ("/r/b.txt".data) ("b.txt".data) = some ("machine stuff".data) ∧
    0 < pyCount (lowerStr ("machine stuff".data)) (lowerStr ("machine".data)) ∧
    (search_by_content envC9 walkC9 ["machine".data] [] 1).map (fun m => m.file_path)
      = ["/r/a.txt".data] ∧
    ¬ ∃ m ∈ search_by_content envC9 walkC9 ["machine".data] [] 1,
        m.file_path = "/r/b.txt".data := by decide

/-! Aggregator loop lemmas. -/

/-- The three branches of the criterion loop, characterised uniformly by
activity: an inactive criterion leaves the candidate dict unchanged; the
first active one adopts its dict; later active ones filter by path. -/
theorem stepCriterion_eq (env : ExtractEnv) (walk : Walk) (params : SearchParams) (maxr : Nat)
    (cand : Option (List (Str × MatchRecord))) (st : Str) :
    stepCriterion env walk params maxr cand st =
      if isActive params st then
        match cand with
        | none => some (dictOf (matcherResults env walk params maxr st))
        | some d =>
          some (d.filter (fun p => dictHas (dictOf (matcherResults env walk params maxr st)) p.1))
      else cand := by
  unfold stepCriterion isActive matcherResults
  by_cases h1 : st == sFileType
  · have e1 : st = sFileType := by simpa using h1
    subst e1
    have h2 : (sFileType == sFilename) = false := by decide
    have h3 : (sFileType == sContent) = false := by decide
    by_cases h4 : params.file_types.isEmpty <;> simp [h2, h3, h4]
  · by_cases h2 : st == sFilename
    · have e2 : st = sFilename := by simpa using h2
      subst e2
      have h1' : (sFilename == sFileType) = false := by decide
      have h3 : (sFilename == sContent) = false := by decide
      by_cases h4 : params.filename_keywords.isEmpty <;> simp [h1', h3, h4]
    · by_cases h3 : st == sContent
      · have e3 : st = sContent := by simpa using h3
        subst e3
        have h1' : (sContent == sFileType) = false := by decide
        have h2' : (sContent == sFilename) = false := by decide
        by_cases h4 : params.content_keywords.isEmpty <;> simp [h1', h2', h4]
      · simp only [Bool.not_eq_true] at h1 h2 h3
        simp [h1, h2, h3]

/-- Soundness of the criterion loop: every entry of the final candidate dict
either survives from the initial dict, or (when starting from `none`) is a
record of the first active criterion's dict; and its path passed the
membership test of every active criterion of the sequence. -/
theorem foldl_step_mem (env : ExtractEnv) (walk : Walk) (params : SearchParams) (maxr : Nat) :
    ∀ (seq : List Str) (cand : Option (List (Str × MatchRecord)))
      (d : List (Str × MatchRecord)),
      seq.foldl (stepCriterion env walk params maxr) cand = some d →
      ∀ px ∈ d,
        ((∃ d₀, cand = some d₀ ∧ px ∈ d₀) ∨
          (cand = none ∧ ∃ st, seq.find? (isActive params) = some st ∧
            px ∈ dictOf (matcherResults env walk params maxr st))) ∧
        (∀ st ∈ seq, isActive params st = true →
          dictHas (dictOf (matcherResults env walk params maxr st)) px.1 = true) := by
  intro seq
  induction seq with
  | nil =>
    intro cand d h px hpx
    refine ⟨Or.inl ⟨d, h, hpx⟩, ?_⟩
    intro st hst
    cases hst
  | cons st seq ih =>
    intro cand d h px hpx
    rw [List.foldl_cons] at h
    by_cases hact : isActive params st
    · cases cand with
      | none =>
        have hstep : stepCriterion env walk params maxr none st
            = some (dictOf (matcherResults env walk params maxr st)) := by
          rw [stepCriterion_eq, if_pos hact]
        rw [hstep] at h
        obtain ⟨hsrc, hall⟩ := ih _ _ h px hpx
        have hin : px ∈ dictOf (matcherResults env walk params maxr st) := by
          rcases hsrc with ⟨d₀, hd₀, hin⟩ | ⟨hnone, _⟩
          · cases Option.some.inj hd₀
            exact hin
          · cases hnone
        constructor
        · right
          exact ⟨rfl, st, by rw [List.find?_cons_of_pos _ hact], hin⟩
        · intro st' hst' hact'
          rcases List.mem_cons.1 hst' with rfl | hmem
          · exact dictHas_of_mem _ _ hin
          · exact hall st' hmem hact'
      | some d₀ =>
        have hstep : stepCriterion env walk params maxr (some d₀) st
            = some (d₀.filter
                (fun p => dictHas (dictOf (matcherResults env walk params maxr st)) p.1)) := by
          rw [stepCriterion_eq, if_pos hact]
        rw [hstep] at h
        obtain ⟨hsrc, hall⟩ := ih _ _ h px hpx
        have hin : px ∈ d₀.filter
            (fun p => dictHas (dictOf (matcherResults env walk params maxr st)) p.1) := by
          rcases hsrc with ⟨d₁, hd₁, hin⟩ | ⟨hnone, _⟩
          · cases Option.some.inj hd₁
            exact hin
          · cases hnone
        constructor
        · exact Or.inl ⟨d₀, rfl, List.mem_of_mem_filter hin⟩
        · intro st' hst' hact'
          rcases List.mem_cons.1 hst' with rfl | hmem
          · simpa using (List.mem_filter.1 hin).2
          · exact hall st' hmem hact'
    · have hstep : stepCriterion env walk params maxr cand st = cand := by
        rw [stepCriterion_eq, if_neg hact]
      rw [hstep] at h
      obtain ⟨hsrc, hall⟩ := ih _ _ h px hpx
      constructor
      · rcases hsrc with h1 | ⟨hnone, st', hfind, hin⟩
        · exact Or.inl h1
        · right
          refine ⟨hnone, st', ?_, hin⟩
          rw [List.find?_cons_of_neg _ hact]
          exact hfind
      · intro st' hst' hact'
        rcases List.mem_cons.1 hst' with rfl | hmem
        · exact absurd hact' hact
        · exact hall st' hmem hact'

/-- Every record of any criterion's matcher output names a walker candidate. -/
theorem matcherResults_mem (env : ExtractEnv) (walk : Walk) (params : SearchParams)
    (maxr : Nat) (st : Str) (m : MatchRecord) (h : m ∈ matcherResults env walk params maxr st) :
    ∃ pr ∈ get_valid_files walk, m.file_path = pr.1 := by
  unfold matcherResults at h
  by_cases h1 : st == sFileType
  · rw [if_pos h1] at h
    rcases search_by_file_type_mem _ _ _ _ h with ⟨pr, hpr, hp, _⟩
    exact ⟨pr, hpr, hp⟩
  · rw [if_neg h1] at h
    by_cases h2 : st == sFilename
    · rw [if_pos h2] at h
      rcases search_by_filename_mem _ _ _ _ _ h with ⟨pr, hpr, hp, _⟩
      exact ⟨pr, hpr, hp⟩
    · rw [if_neg h2] at h
      by_cases h3 : st == sContent
      · rw [if_pos h3] at h
        rcases search_by_content_mem _ _ _ _ _ _ h with ⟨pr, hpr, hp, _⟩
        exact ⟨pr, hpr, hp⟩
      · rw [if_neg h3] at h
        cases h

/-- Unfolds the walker one directory at a time. -/
theorem get_valid_files_cons (e : Str × List Str) (walk : Walk) :
    get_valid_files (e :: walk)
      = if denyDir e.1 then get_valid_files walk
        else (e.2.filter okName).map (fun f => (joinPath e.1 f, f)) ++ get_valid_files walk := rfl

/-- Every walker-yielded file comes from a walk directory that passed the
denylist, has a base name that passed the name rules, and carries the joined
path of that directory and name. -/
theorem get_valid_files_mem :
    ∀ (walk : Walk) (pr : Str × Str), pr ∈ get_valid_files walk →
      ∃ e ∈ walk, denyDir e.1 = false ∧ pr.2 ∈ e.2 ∧ okName pr.2 = true ∧
        pr.1 = joinPath e.1 pr.2 := by
  intro walk
  induction walk with
  | nil => intro pr h; cases h
  | cons e walk ih =>
    intro pr h
    rw [get_valid_files_cons] at h
    by_cases hd : denyDir e.1
    · rw [if_pos hd] at h
      rcases ih pr h with ⟨e', he', rest⟩
      exact ⟨e', List.mem_cons_of_mem _ he', rest⟩
    · rw [if_neg hd] at h
      rcases List.mem_append.1 h with h1 | h1
      · rcases List.mem_map.1 h1 with ⟨f, hf, hfe⟩
        have hfr := List.mem_filter.1 hf
        cases hfe
        exact ⟨e, List.mem_cons_self e walk,
          by rwa [Bool.not_eq_true] at hd, hfr.1, hfr.2, rfl⟩
      · rcases ih pr h1 with ⟨e', he', rest⟩
        exact ⟨e', List.mem_cons_of_mem _ he', rest⟩

/-- Paths of final results all come from the walker. -/
theorem search_files_path_provenance (env : ExtractEnv) (folder : Str) (walk : Walk)
    (params : SearchParams) (maxr : Nat) :
    ∀ r ∈ search_files env folder walk params maxr,
      ∃ pr ∈ get_valid_files walk, r.file_path = pr.1 := by
  intro r hr
  rcases List.mem_map.1 hr with ⟨m, hm, hconv⟩
  have hm2 : m ∈ sortedResults env walk params maxr := List.mem_of_mem_take hm
  have hm3 : m ∈ dictResults env walk params maxr := by
    unfold sortedResults at hm2
    exact List.mem_mergeSort.1 hm2
  unfold dictResults at hm3
  cases hfold : candidateFold env walk params maxr with
  | none => rw [hfold] at hm3; cases hm3
  | some d =>
    rw [hfold] at hm3
    rcases List.mem_map.1 hm3 with ⟨px, hpx, hpx2⟩
    obtain ⟨hsrc, _⟩ :=
      foldl_step_mem env walk params maxr params.search_sequence none d hfold px hpx
    rcases hsrc with ⟨d₀, habs, _⟩ | ⟨_, st, _, hin⟩
    · cases habs
    · have hrec := dictOf_mem _ _ hin
      rcases matcherResults_mem env walk params maxr st px.2 hrec.1 with ⟨pr, hpr, hp⟩
      refine ⟨pr, hpr, ?_⟩
      rw [← hconv]
      show m.file_path = pr.1
      rw [← hpx2]
      exact hp

/-! Claim C1, amended part: intersection with first-matcher record. -/

/-- C1 amended: when at least two criterion kinds are active, a path appears
in the final result only if every active criterion matcher (as invoked by
the aggregator, over the criteria's evaluation sequence) returned it, and
the relevance score, match explanation and criterion kind reported for the
path are those of the record produced by the FIRST active matcher of the
evaluation sequence — the intersection step keeps the running dict's
records, not the new criterion's. -/
theorem C1_amended_first_matcher (env : ExtractEnv) (folder : Str) (walk : Walk)
    (params : SearchParams) (maxr : Nat) (_htwo : 2 ≤ activeCount params) :
    ∀ r ∈ search_files env folder walk params maxr,
      (∀ st ∈ params.search_sequence, isActive params st = true →
        ∃ m ∈ matcherResults env walk params maxr st, m.file_path = r.file_path) ∧
      (∃ st, params.search_sequence.find? (isActive params) = some st ∧
        ∃ m ∈ matcherResults env walk params maxr st,
          m.file_path = r.file_path ∧ m.relevance_score = r.relevance_score ∧
          m.match_details = r.match_details ∧ m.search_type = r.search_type) := by
  intro r hr
  rcases List.mem_map.1 hr with ⟨m, hm, hconv⟩
  have hm2 : m ∈ sortedResults env walk params maxr := List.mem_of_mem_take hm
  have hm3 : m ∈ dictResults env walk params maxr := by
    unfold sortedResults at hm2
    exact List.mem_mergeSort.1 hm2
  unfold dictResults at hm3
  cases hfold : candidateFold env walk params maxr with
  | none => rw [hfold] at hm3; cases hm3
  | some d =>
    rw [hfold] at hm3
    rcases List.mem_map.1 hm3 with ⟨px, hpx, hpx2⟩
    obtain ⟨hsrc, hall⟩ :=
      foldl_step_mem env walk params maxr params.search_sequence none d hfold px hpx
    rcases hsrc with ⟨d₀, habs, _⟩ | ⟨_, st, hfind, hin⟩
    · cases habs
    · have hrec := dictOf_mem _ _ hin
      have hpath : r.file_path = px.1 := by
        rw [← hconv]
        show m.file_path = px.1
        rw [← hpx2, hrec.2]
      constructor
      · intro st' hst' hact'
        have hhas := hall st' hst' hact'
        rcases exists_of_dictHas _ _ hhas with ⟨m', hm', hm'p⟩
        exact ⟨m', hm', by rw [hm'p, hpath]⟩
      · refine ⟨st, hfind, px.2, hrec.1, ?_, ?_, ?_, ?_⟩
        · rw [hpath, hrec.2]
        · rw [← hconv]; show px.2.relevance_score = m.relevance_score; rw [hpx2]
        · rw [← hconv]; show px.2.match_details = m.match_details; rw [hpx2]
        · rw [← hconv]; show px.2.search_type = m.search_type; rw [hpx2]

/-- C1 amended, witness: the hypothesis and conclusion hold at the concrete
two-criteria fixture. -/
theorem C1_amended_witness :
    2 ≤ activeCount pC1 ∧
    (∀ r ∈ search_files envTriv ("/r".data) walkC1 pC1 5,
      (∀ st ∈ pC1.search_sequence, isActive pC1 st = true →
        ∃ m ∈ matcherResults envTriv walkC1 pC1 5 st, m.file_path = r.file_path) ∧
      (∃ st, pC1.search_sequence.find? (isActive pC1) = some st ∧
        ∃ m ∈ matcherResults envTriv walkC1 pC1 5 st,
          m.file_path = r.file_path ∧ m.relevance_score = r.relevance_score ∧
          m.match_details = r.match_details ∧ m.search_type = r.search_type)) :=
  ⟨by decide, C1_amended_first_matcher envTriv ("/r".data) walkC1 pC1 5 (by decide)⟩

/-! Claim C6, amended part: walker exclusions apply to the directory path. -/

/-- C6 amended: every file yielded by the walker lies in a walk directory
whose lower-cased path contains no denylist marker (so files under marked
directories never appear), its base name neither starts with `.` or `~` nor
ends with `.h`, and every matcher output record — and hence every final
result — carries the path of a walker-yielded file.  The marker test applies
to the directory path, not to the file's full path. -/
theorem C6_amended_walker_exclusions (walk : Walk) :
    (∀ pr ∈ get_valid_files walk,
      ∃ e ∈ walk, denyDir e.1 = false ∧ pr.2 ∈ e.2 ∧ okName pr.2 = true ∧
        pr.1 = joinPath e.1 pr.2) ∧
    (∀ fts maxr, ∀ m ∈ search_by_file_type walk fts maxr,
      ∃ pr ∈ get_valid_files walk, m.file_path = pr.1) ∧
    (∀ kws ex maxr, ∀ m ∈ search_by_filename walk kws ex maxr,
      ∃ pr ∈ get_valid_files walk, m.file_path = pr.1) ∧
    (∀ env kws ex maxr, ∀ m ∈ search_by_content env walk kws ex maxr,
      ∃ pr ∈ get_valid_files walk, m.file_path = pr.1) ∧
    (∀ env folder params maxr, ∀ r ∈ search_files env folder walk params maxr,
      ∃ pr ∈ get_valid_files walk, r.file_path = pr.1) := by
  refine ⟨fun pr h => get_valid_files_mem walk pr h, ?_, ?_, ?_, ?_⟩
  · intro fts maxr m h
    rcases search_by_file_type_mem _ _ _ _ h with ⟨pr, hpr, hp, _⟩
    exact ⟨pr, hpr, hp⟩
  · intro kws ex maxr m h
    rcases search_by_filename_mem _ _ _ _ _ h with ⟨pr, hpr, hp, _⟩
    exact ⟨pr, hpr, hp⟩
  · intro env kws ex maxr m h
    rcases search_by_content_mem _ _ _ _ _ _ h with ⟨pr, hpr, hp, _⟩
    exact ⟨pr, hpr, hp⟩
  · intro env folder params maxr r h
    exact search_files_path_provenance env folder walk params maxr r h

/-- C6 amended, witness: the exclusion invariants instantiated at a concrete
tree, with the membership hypotheses discharged on its yielded file. -/
theorem C6_amended_witness :
    ∃ e ∈ walkC6, denyDir e.1 = false ∧ ("x.git.txt".data : Str) ∈ e.2 ∧
      okName ("x.git.txt".data) = true ∧
      ("/r/x.git.txt".data : Str) = joinPath e.1 ("x.git.txt".data) :=
  (C6_amended_walker_exclusions walkC6).1 ("/r/x.git.txt".data, "x.git.txt".data) (by decide)

/-! Claim C7: ranking, stability and truncation. -/

/-- The comparator is transitive. -/
theorem sortLE_trans : ∀ (a b c : MatchRecord),
    sortLE a b → sortLE b c → sortLE a c := by
  intro a b c
  simp only [sortLE, Bool.or_eq_true, Bool.and_eq_true, decide_eq_true_eq]
  omega

/-- The comparator is total. -/
theorem sortLE_total : ∀ (a b : MatchRecord), sortLE a b || sortLE b a := by
  intro a b
  simp only [sortLE, Bool.or_eq_true, Bool.and_eq_true, decide_eq_true_eq]
  omega

/-- The comparator spelled out as a lexicographic comparison of keys. -/
theorem sortLE_iff (a b : MatchRecord) :
    sortLE a b = true
      ↔ ((recKey b).1 < (recKey a).1
          ∨ ((recKey b).1 = (recKey a).1 ∧ (recKey b).2 ≤ (recKey a).2)) := by
  simp [sortLE]

/-- The conversion to external results preserves the sort key. -/
theorem resKey_toSearchResult (folder : Str) (m : MatchRecord) :
    resKey (toSearchResult folder m) = recKey m := rfl

/-- C7: the final list is the truncation of the stably sorted candidate
records: it has at most `max_results` entries; it is sorted by
(criterion-kind priority, relevance score), descending lexicographically;
every record dropped by the truncation has a key no larger than every kept
one; and the sort is stable — for any key value, the sorted records with
that key appear exactly in their original (discovery) order. -/
theorem C7_rank_and_truncate (env : ExtractEnv) (folder : Str) (walk : Walk)
    (params : SearchParams) (maxr : Nat) :
    search_files env folder walk params maxr
        = ((sortedResults env walk params maxr).take maxr).map (toSearchResult folder) ∧
    (search_files env folder walk params maxr).length ≤ maxr ∧
    (search_files env folder walk params maxr).Pairwise
      (fun a b => (resKey b).1 < (resKey a).1
        ∨ ((resKey b).1 = (resKey a).1 ∧ (resKey b).2 ≤ (resKey a).2)) ∧
    (∀ r ∈ search_files env folder walk params maxr,
      ∀ m ∈ (sortedResults env walk params maxr).drop maxr,
        (recKey m).1 < (resKey r).1
          ∨ ((recKey m).1 = (resKey r).1 ∧ (recKey m).2 ≤ (resKey r).2)) ∧
    (∀ k : Nat × Nat,
      (sortedResults env walk params maxr).filter (fun m => recKey m == k)
        = (dictResults env walk params maxr).filter (fun m => recKey m == k)) := by
  have hsorted : (sortedResults env walk params maxr).Pairwise (fun a b => sortLE a b = true) := by
    unfold sortedResults
    exact List.sorted_mergeSort sortLE_trans sortLE_total _
  refine ⟨rfl, ?_, ?_, ?_, ?_⟩
  · unfold search_files
    rw [List.length_map, List.length_take]
    omega
  · unfold search_files
    rw [List.pairwise_map]
    have htake : ((sortedResults env walk params maxr).take maxr).Pairwise
        (fun a b => sortLE a b = true) :=
      hsorted.sublist (List.take_sublist maxr _)
    exact htake.imp (fun h => by
      simpa [resKey_toSearchResult] using (sortLE_iff _ _).1 h)
  · intro r hr m hm
    rcases List.mem_map.1 hr with ⟨a, ha, hconv⟩
    have hsplit := List.take_append_drop maxr (sortedResults env walk params maxr)
    have hp : ((sortedResults env walk params maxr).take maxr
        ++ (sortedResults env walk params maxr).drop maxr).Pairwise
          (fun a b => sortLE a b = true) := by
      rw [hsplit]
      exact hsorted
    have hle := (List.pairwise_append.1 hp).2.2 a ha m hm
    rw [← hconv, resKey_toSearchResult]
    exact (sortLE_iff a m).1 hle
  · intro k
    set p : MatchRecord → Bool := fun m => recKey m == k with hp
    set c : List MatchRecord := (dictResults env walk params maxr).filter p with hc
    have hckey : ∀ a ∈ c, recKey a = k := by
      intro a ha
      have := List.of_mem_filter ha
      rw [hp] at this
      simpa using this
    have hcpair : c.Pairwise (fun a b => sortLE a b = true) := by
      apply List.pairwise_of_forall_mem_list
      intro a ha b hb
      rw [sortLE_iff, hckey a ha, hckey b hb]
      right
      exact ⟨rfl, Nat.le_refl _⟩
    have hcsub : List.Sublist c (dictResults env walk params maxr) := List.filter_sublist _
    have hsub : List.Sublist c (sortedResults env walk params maxr) := by
      unfold sortedResults
      exact List.sublist_mergeSort sortLE_trans sortLE_total hcpair hcsub
    have hcfix : c.filter p = c := by
      rw [List.filter_eq_self]
      intro a ha
      rw [hp]
      simp [hckey a ha]
    have hsub2 : List.Sublist c ((sortedResults env walk params maxr).filter p) := by
      have := hsub.filter p
      rwa [hcfix] at this
    have hperm : List.Perm ((sortedResults env walk params maxr).filter p) c := by
      unfold sortedResults
      exact (List.mergeSort_perm _ _).filter p
    have heq : c = (sortedResults env walk params maxr).filter p :=
      hsub2.eq_of_length hperm.length_eq.symm
    exact heq.symm

/-- C7, witness: the ranking properties instantiated at the concrete
two-criteria fixture, with the membership obligations discharged there. -/
theorem C7_witness :
    (search_files envTriv ("/r".data) walkC1 pC1 5).length ≤ 5 :=
  (C7_rank_and_truncate envTriv ("/r".data) walkC1 pC1 5).2.1

/-! Claims C8 and C9: matcher membership and scores, under the result cap. -/

/-- With no `existing_files`, the filename matcher is the plain capped scan:
the skip test on the empty set never fires. -/
theorem search_by_filename_no_existing (walk : Walk) (kws : List Str) (maxr : Nat)
    (hne : kws ≠ []) :
    search_by_filename walk kws [] maxr
      = capGo (filenameRecord kws) maxr (get_valid_files walk) [] := by
  unfold search_by_filename
  rw [if_neg (by simpa [List.isEmpty_iff] using hne)]
  rfl

/-- With no `existing_files`, the content matcher is the plain capped scan. -/
theorem search_by_content_no_existing (env : ExtractEnv) (walk : Walk) (kws : List Str)
    (maxr : Nat) (hne : kws ≠ []) :
    search_by_content env walk kws [] maxr
      = capGoEach (contentMatchRecord env kws) (fun _ => false) maxr (get_valid_files walk) [] := by
  unfold search_by_content
  rw [if_neg (by simpa [List.isEmpty_iff] using hne)]
  rfl

/-- C8 amended: provided the number of matching candidates does not exceed
the result cap, the filename matcher returns exactly one record per
candidate with at least one case-insensitively matching keyword, in
discovery order; each returned record scores 10 points per matching keyword
of the (duplicate-free) keyword set — i.e. 10 times the count of distinct
matching keywords.  Without the cap proviso a matching candidate can be
omitted (see the counterexample). -/
theorem C8_amended_filename_matcher (walk : Walk) (kws : List Str) (maxr : Nat)
    (hne : kws ≠ []) (_hnd : kws.Nodup)
    (hcap : (get_valid_files walk).countP (fun pr => (filenameRecord kws pr).isSome) ≤ maxr) :
    search_by_filename walk kws [] maxr
        = (get_valid_files walk).filterMap (filenameRecord kws) ∧
    (∀ pr ∈ get_valid_files walk,
      (∃ k ∈ kws, hasSub (lowerStr k) (lowerStr pr.2) = true) →
        ∃ m ∈ search_by_filename walk kws [] maxr,
          m.file_path = pr.1 ∧ m.search_type = sFilename ∧
          m.relevance_score
            = 10 * (kws.filter fun k => hasSub (lowerStr k) (lowerStr pr.2)).length) ∧
    (∀ m ∈ search_by_filename walk kws [] maxr,
      ∃ pr ∈ get_valid_files walk,
        m.file_path = pr.1 ∧ (∃ k ∈ kws, hasSub (lowerStr k) (lowerStr pr.2) = true) ∧
        m.relevance_score
          = 10 * (kws.filter fun k => hasSub (lowerStr k) (lowerStr pr.2)).length) := by
  have heq : search_by_filename walk kws [] maxr
      = (get_valid_files walk).filterMap (filenameRecord kws) := by
    rw [search_by_filename_no_existing walk kws maxr hne]
    have := capGo_eq_filterMap (filenameRecord kws) maxr (get_valid_files walk) []
      (by simpa using hcap)
    simpa using this
  refine ⟨heq, ?_, ?_⟩
  · intro pr hpr hmatch
    have hsome : (filenameRecord kws pr).isSome = true :=
      (filenameRecord_isSome_iff kws pr).2 hmatch
    rcases Option.isSome_iff_exists.1 hsome with ⟨m, hm⟩
    refine ⟨m, ?_, ?_⟩
    · rw [heq]
      exact List.mem_filterMap.2 ⟨pr, hpr, hm⟩
    · obtain ⟨h1, h2, h3⟩ := filenameRecord_some kws pr m hm
      exact ⟨h1, h2, h3⟩
  · intro m hm
    rw [heq] at hm
    rcases List.mem_filterMap.1 hm with ⟨pr, hpr, hrec⟩
    obtain ⟨h1, _, h3⟩ := filenameRecord_some kws pr m hrec
    have hmatch : ∃ k ∈ kws, hasSub (lowerStr k) (lowerStr pr.2) = true :=
      (filenameRecord_isSome_iff kws pr).1 (by rw [hrec]; rfl)
    exact ⟨pr, hpr, h1, hmatch, h3⟩

/-- C8 amended, witness: the hypotheses hold at the concrete fixture, and
the matcher equals the uncapped filter-map there. -/
theorem C8_amended_witness :
    (["ml".data] : List Str) ≠ [] ∧ (["ml".data] : List Str).Nodup ∧
    (get_valid_files walkC8).countP
        (fun pr => (filenameRecord ["ml".data] pr).isSome) ≤ 50 ∧
    search_by_filename walkC8 ["ml".data] [] 50
      = (get_valid_files walkC8).filterMap (filenameRecord ["ml".data]) :=
  ⟨by decide, by decide, by decide,
    (C8_amended_filename_matcher walkC8 ["ml".data] 50 (by decide) (by decide) (by decide)).1⟩

/-- Inversion of a returned content record: it names non-empty extracted
text in which some keyword occurs, and carries the doubled total occurrence
count as its score. -/
theorem contentMatchRecord_some_inv (env : ExtractEnv) (kws : List Str) (pr : Str × Str)
    (m : MatchRecord) (h : contentMatchRecord env kws pr = some m) :
    ∃ t, extractContent env pr.1 pr.2 = some t ∧ t ≠ [] ∧
      (∃ k ∈ kws, 0 < pyCount (lowerStr t) (lowerStr k)) ∧
      m.file_path = pr.1 ∧ m.search_type = sContent ∧
      m.relevance_score = 2 * ((kws.map fun k => pyCount (lowerStr t) (lowerStr k)).sum) := by
  cases hx : extractContent env pr.1 pr.2 with
  | none => simp [contentMatchRecord, hx] at h
  | some t =>
    by_cases hemp : t.isEmpty
    · rw [List.isEmpty_iff] at hemp
      rw [hemp] at hx
      rw [contentMatchRecord_empty env kws pr hx] at h
      cases h
    · have ht : t ≠ [] := by
        rw [Bool.not_eq_true] at hemp
        exact List.isEmpty_eq_false.1 hemp
      obtain ⟨hiff, hfields⟩ := contentMatchRecord_eval env kws pr t hx ht
      have hsome : (contentMatchRecord env kws pr).isSome = true := by rw [h]; rfl
      obtain ⟨h1, h2, h3⟩ := hfields m h
      exact ⟨t, rfl, ht, hiff.1 hsome, h1, h2, h3⟩

/-- C9 amended: provided the number of matching candidates does not exceed
the result cap, the content matcher returns exactly one record per candidate
whose extracted text is non-empty and contains at least one keyword
occurrence (case-insensitive), in discovery order; each returned record
scores twice the total occurrence count of all requested keywords in the
lower-cased text.  Without the cap proviso a matching candidate can be
omitted (see the counterexample). -/
theorem C9_amended_content_matcher (env : ExtractEnv) (walk : Walk) (kws : List Str)
    (maxr : Nat) (hne : kws ≠ [])
    (hcap : (get_valid_files walk).countP
      (fun pr => (contentMatchRecord env kws pr).isSome) ≤ maxr) :
    search_by_content env walk kws [] maxr
        = (get_valid_files walk).filterMap (contentMatchRecord env kws) ∧
    (∀ pr ∈ get_valid_files walk, ∀ t, extractContent env pr.1 pr.2 = some t → t ≠ [] →
      (∃ k ∈ kws, 0 < pyCount (lowerStr t) (lowerStr k)) →
        ∃ m ∈ search_by_content env walk kws [] maxr,
          m.file_path = pr.1 ∧ m.search_type = sContent ∧
          m.relevance_score
            = 2 * ((kws.map fun k => pyCount (lowerStr t) (lowerStr k)).sum)) ∧
    (∀ m ∈ search_by_content env walk kws [] maxr,
      ∃ pr ∈ get_valid_files walk, ∃ t,
        extractContent env pr.1 pr.2 = some t ∧ t ≠ [] ∧
        (∃ k ∈ kws, 0 < pyCount (lowerStr t) (lowerStr k)) ∧
        m.file_path = pr.1 ∧
        m.relevance_score
          = 2 * ((kws.map fun k => pyCount (lowerStr t) (lowerStr k)).sum)) := by
  have heq : search_by_content env walk kws [] maxr
      = (get_valid_files walk).filterMap (contentMatchRecord env kws) := by
    rw [search_by_content_no_existing env walk kws maxr hne]
    have := capGoEach_eq_filterMap (contentMatchRecord env kws) maxr (get_valid_files walk) []
      (by simpa using hcap)
    simpa using this
  refine ⟨heq, ?_, ?_⟩
  · intro pr hpr t hx ht hmatch
    obtain ⟨hiff, hfields⟩ := contentMatchRecord_eval env kws pr t hx ht
    have hsome : (contentMatchRecord env kws pr).isSome = true := hiff.2 hmatch
    rcases Option.isSome_iff_exists.1 hsome with ⟨m, hm⟩
    refine ⟨m, ?_, ?_⟩
    · rw [heq]
      exact List.mem_filterMap.2 ⟨pr, hpr, hm⟩
    · obtain ⟨h1, h2, h3⟩ := hfields m hm
      exact ⟨h1, h2, h3⟩
  · intro m hm
    rw [heq] at hm
    rcases List.mem_filterMap.1 hm with ⟨pr, hpr, hrec⟩
    rcases contentMatchRecord_some_inv env kws pr m hrec with ⟨t, hx, ht, hocc, h1, _, h3⟩
    exact ⟨pr, hpr, t, hx, ht, hocc, h1, h3⟩

/-- C9 amended, witness: the hypotheses hold at the concrete fixture, and
the matcher equals the uncapped filter-map there. -/
theorem C9_amended_witness :
    (["machine".data] : List Str) ≠ [] ∧
    (get_valid_files walkC9).countP
        (fun pr => (contentMatchRecord envC9 ["machine".data] pr).isSome) ≤ 50 ∧
    search_by_content envC9 walkC9 ["machine".data] [] 50
      = (get_valid_files walkC9).filterMap (contentMatchRecord envC9 ["machine".data]) :=
  ⟨by decide, by decide,
    (C9_amended_content_matcher envC9 walkC9 ["machine".data] 50 (by decide) (by decide)).1⟩

/-! Claim C10: empty content keywords. -/

/-- A capped scan whose first candidate is neither skipped nor recordless
starts its output with that candidate's record. -/
theorem capGoEach_head_some (rec : Str × Str → Option MatchRecord) (maxr : Nat)
    (f : Str × Str) (fs : List (Str × Str)) (r : MatchRecord)
    (hr : rec f = some r) (_hmax : 1 ≤ maxr) :
    ∃ rest2, capGoEach rec (fun _ => false) maxr (f :: fs) [] = r :: rest2 := by
  unfold capGoEach
  rw [if_neg (by simp)]
  simp only [hr, List.nil_append]
  by_cases hlen : maxr ≤ ([r] : List MatchRecord).length
  · rw [if_pos hlen]
    exact ⟨[], rfl⟩
  · rw [if_neg hlen]
    rcases capGoEach_extends rec (fun _ => false) maxr fs [r] with ⟨rest, hrest⟩
    exact ⟨rest, hrest⟩

/-- C10: for a file with non-empty extracted text, an empty string among the
content keywords is counted as occurring `len(text) + 1` times, so the file
always qualifies as a content match; its score is twice the total occurrence
count, hence at least `2 * (len(text) + 1)`; and an empty keyword is not
rejected at the public interface — the matcher returns the file's record
when it heads the candidate list. -/
theorem C10_empty_keyword_content (env : ExtractEnv) (kws : List Str) (fp fn t : Str)
    (hx : extractContent env fp fn = some t) (ht : t ≠ []) (hm : ([] : Str) ∈ kws) :
    pyCount (lowerStr t) (lowerStr []) = t.length + 1 ∧
    (∃ m, contentMatchRecord env kws (fp, fn) = some m ∧
      m.relevance_score = 2 * ((kws.map fun k => pyCount (lowerStr t) (lowerStr k)).sum) ∧
      2 * (t.length + 1) ≤ m.relevance_score) ∧
    (∀ (walk : Walk) (rest : List (Str × Str)) (maxr : Nat), 1 ≤ maxr →
      get_valid_files walk = (fp, fn) :: rest →
      ∃ m ∈ search_by_content env walk kws [] maxr, m.file_path = fp) := by
  have hcount : pyCount (lowerStr t) (lowerStr []) = t.length + 1 := by
    show pyCount (lowerStr t) [] = t.length + 1
    unfold pyCount
    simp [lowerStr]
  have hocc : ∃ k ∈ kws, 0 < pyCount (lowerStr t) (lowerStr k) :=
    ⟨[], hm, by rw [hcount]; omega⟩
  obtain ⟨hiff, hfields⟩ := contentMatchRecord_eval env kws (fp, fn) t hx ht
  have hsome := hiff.2 hocc
  rcases Option.isSome_iff_exists.1 hsome with ⟨m, hmrec⟩
  obtain ⟨hpath, _, hscore⟩ := hfields m hmrec
  have hge : 2 * (t.length + 1) ≤ m.relevance_score := by
    rw [hscore]
    have hmem : pyCount (lowerStr t) (lowerStr [])
        ∈ kws.map (fun k => pyCount (lowerStr t) (lowerStr k)) :=
      List.mem_map.2 ⟨[], hm, rfl⟩
    have hle := List.single_le_sum (l := kws.map (fun k => pyCount (lowerStr t) (lowerStr k)))
      (fun x _ => Nat.zero_le x) _ hmem
    rw [hcount] at hle
    omega
  refine ⟨hcount, ⟨m, hmrec, hscore, hge⟩, ?_⟩
  intro walk rest maxr hmax hgvf
  have hne : kws ≠ [] := by
    intro hk
    rw [hk] at hm
    cases hm
  rw [search_by_content_no_existing env walk kws maxr hne, hgvf]
  rcases capGoEach_head_some (contentMatchRecord env kws) maxr (fp, fn) rest m hmrec hmax
    with ⟨rest2, hrest2⟩
  rw [hrest2]
  exact ⟨m, List.mem_cons_self m rest2, hpath⟩

/-- C10, witness: the empty keyword qualifies a concrete text file and its
record is returned by the matcher at the head of a concrete tree. -/
theorem C10_witness :
    pyCount (lowerStr ("machine stuff".data)) (lowerStr []) = ("machine stuff".data : Str).length + 1 ∧
    (∃ m, contentMatchRecord envC9 [([] : Str)] ("/r/a.txt".data, "a.txt".data) = some m ∧
      m.relevance_score = 2 * (([([] : Str)].map
        fun k => pyCount (lowerStr ("machine stuff".data)) (lowerStr k)).sum) ∧
      2 * (("machine stuff".data : Str).length + 1) ≤ m.relevance_score) ∧
    (∀ (walk : Walk) (rest : List (Str × Str)) (maxr : Nat), 1 ≤ maxr →
      get_valid_files walk = ("/r/a.txt".data, "a.txt".data) :: rest →
      ∃ m ∈ search_by_content envC9 walk [([] : Str)] [] maxr,
        m.file_path = "/r/a.txt".data) :=
  C10_empty_keyword_content envC9 [([] : Str)] ("/r/a.txt".data) ("a.txt".data)
    ("machine stuff".data) (by decide) (by decide) (by decide)

/-! Claim C5, amended part: degradation of the optional-library formats. -/

/-- Dropping one candidate that is neither skipped nor matched does not
change a capped scan that has room left: the scan continues over the
remaining files exactly as if the candidate were absent. -/
theorem capGoEach_cons (rec : Str × Str → Option MatchRecord) (skip : Str × Str → Bool)
    (maxr : Nat) (f : Str × Str) (fs : List (Str × Str)) (acc : List MatchRecord) :
    capGoEach rec skip maxr (f :: fs) acc
      = if skip f then capGoEach rec skip maxr fs acc
        else if maxr ≤ (acc ++ (match rec f with | some r => [r] | none => [])).length
          then acc ++ (match rec f with | some r => [r] | none => [])
          else capGoEach rec skip maxr fs
            (acc ++ (match rec f with | some r => [r] | none => [])) := rfl

theorem capGoEach_drop_none (rec : Str × Str → Option MatchRecord) (skip : Str × Str → Bool)
    (maxr : Nat) (f : Str × Str) (hskip : skip f = false) (hrec : rec f = none) :
    ∀ (l1 l2 : List (Str × Str)) (acc : List MatchRecord), acc.length < maxr →
      capGoEach rec skip maxr (l1 ++ f :: l2) acc = capGoEach rec skip maxr (l1 ++ l2) acc := by
  intro l1
  induction l1 with
  | nil =>
    intro l2 acc hacc
    simp only [List.nil_append]
    rw [capGoEach_cons]
    rw [if_neg (by rw [hskip]; exact Bool.false_ne_true)]
    simp only [hrec, List.append_nil]
    rw [if_neg (by omega)]
  | cons x l1 ih =>
    intro l2 acc hacc
    simp only [List.cons_append]
    rw [capGoEach_cons, capGoEach_cons]
    by_cases hsx : skip x
    · rw [if_pos hsx, if_pos hsx]
      exact ih l2 acc hacc
    · rw [if_neg hsx, if_neg hsx]
      by_cases hlen : maxr ≤ (acc ++ (match rec x with | some r => [r] | none => [])).length
      · rw [if_pos hlen, if_pos hlen]
      · rw [if_neg hlen, if_neg hlen]
        exact ih l2 _ (by omega)

/-- C5 amended: for the word-processor and spreadsheet formats, absence of
the optional library or an internal library error degrades the extracted
text to the empty string; for PDF an internal library error degrades to the
empty string, but absence of the library instead falls back to a raw text
read (see the counterexample); an empty extraction can never qualify as a
content match; and a candidate contributing no record leaves the scan of the
remaining files unchanged while the cap has room. -/
theorem C5_amended_degradation (env : ExtractEnv) (fp fn : Str) :
    ((env.guessMime fp == some mPdf || lowerStr (splitextExt fn) == ".pdf".data) = false →
      (env.guessMime fp == some mDocx || env.guessMime fp == some mMsword
        || lowerStr (splitextExt fn) == ".docx".data
        || lowerStr (splitextExt fn) == ".doc".data) = true →
      (env.hasDocx = false ∨ env.docxText fp = LibResult.exn) →
      extractContent env fp fn = some []) ∧
    ((env.guessMime fp == some mPdf || lowerStr (splitextExt fn) == ".pdf".data) = false →
      (env.guessMime fp == some mDocx || env.guessMime fp == some mMsword
        || lowerStr (splitextExt fn) == ".docx".data
        || lowerStr (splitextExt fn) == ".doc".data) = false →
      (env.guessMime fp == some mJson || lowerStr (splitextExt fn) == ".json".data) = false →
      (env.guessMime fp == some mXlsx || env.guessMime fp == some mXls
        || lowerStr (splitextExt fn) == ".xlsx".data
        || lowerStr (splitextExt fn) == ".xls".data) = true →
      (env.hasOpenpyxl = false ∨ env.xlsxText fp = LibResult.exn) →
      extractContent env fp fn = some []) ∧
    ((env.guessMime fp == some mPdf || lowerStr (splitextExt fn) == ".pdf".data) = true →
      env.hasPyPDF2 = true → env.pdfText fp = LibResult.exn →
      extractContent env fp fn = some []) ∧
    (∀ (kws : List Str) (pr : Str × Str), extractContent env pr.1 pr.2 = some [] →
      contentMatchRecord env kws pr = none) ∧
    (∀ (rec : Str × Str → Option MatchRecord) (skip : Str × Str → Bool) (maxr : Nat)
      (f : Str × Str) (l1 l2 : List (Str × Str)) (acc : List MatchRecord),
      skip f = false → rec f = none → acc.length < maxr →
      capGoEach rec skip maxr (l1 ++ f :: l2) acc = capGoEach rec skip maxr (l1 ++ l2) acc) := by
  refine ⟨?_, ?_, ?_, ?_, ?_⟩
  · intro h1 h2 h3
    rcases h3 with h3 | h3
    · simp [extractContent, h1, h2, h3]
    · cases hdx : env.hasDocx <;> simp [extractContent, h1, h2, h3, hdx]
  · intro h1 h2 h3 h4 h5
    rcases h5 with h5 | h5
    · simp [extractContent, h1, h2, h3, h4, h5]
    · cases hox : env.hasOpenpyxl <;> simp [extractContent, h1, h2, h3, h4, h5, hox]
  · intro h1 h2 h3
    simp [extractContent, h1, h2, h3]
  · intro kws pr hx
    exact contentMatchRecord_empty env kws pr hx
  · intro rec skip maxr f l1 l2 acc hskip hrec hacc
    exact capGoEach_drop_none rec skip maxr f hskip hrec l1 l2 acc hacc

/-- C5 amended, witness: a `.docx` file with the library absent extracts to
the empty string. -/
theorem C5_amended_witness :
    extractContent envC5w ("/r/memo.docx".data) ("memo.docx".data) = some [] :=
  (C5_amended_degradation envC5w ("/r/memo.docx".data) ("memo.docx".data)).1
    (by decide) (by decide) (Or.inl (by decide))

end FileSearch
